import Mathlib

/-!
Verification development for the feature-selection core of `src/main.py`
(class-pairwise distance table construction and the feature-selection
strategies that operate on diffusion-map coordinates).

Numeric values (floats in the source) are embedded as rationals `ℚ`.
DataFrames are embedded as ordered lists of named columns, pandas Series
as an index list plus a value list.  The external clustering libraries
(sklearn KMeans, sklearn_extra KMedoids) are abstracted as function
parameters from `(seed, points, k)` to their result, mirroring exactly how
the source hands data to them; everything the repository itself computes is
translated directly from the Python.
-/

namespace Thesis

/-! ### Python / numpy primitives used by the source -/

/-- Python slice `xs[-k:]`.  For `k = 0` the slice `xs[-0:]` is `xs[0:]`,
i.e. the whole list; for `k > 0` it is the last `min k (length xs)`
elements. -/
def pySliceLast (k : ℕ) (xs : List α) : List α :=
  if k = 0 then xs else xs.drop (xs.length - k)

/-- `numpy` transpose of a `d×N` matrix given as a list of `d` rows, each of
length `N`: the result lists the `N` columns. -/
def npTranspose (m : List (List ℚ)) : List (List ℚ) :=
  (List.range (m.headD []).length).map (fun j => m.map (fun r => r.getD j 0))

/-- `np.argsort v`: the indices `0..v.length-1` sorted by their value in `v`
ascending (embedded with a stable sort; every claim proved below is
insensitive to how equal keys are ordered). -/
def argsort (v : List ℚ) : List ℕ :=
  List.insertionSort (fun i j => v.getD i 0 ≤ v.getD j 0) (List.range v.length)

instance argsortRelTotal (v : List ℚ) :
    IsTotal ℕ (fun i j => v.getD i 0 ≤ v.getD j 0) :=
  ⟨fun _ _ => le_total _ _⟩

instance argsortRelTrans (v : List ℚ) :
    IsTrans ℕ (fun i j => v.getD i 0 ≤ v.getD j 0) :=
  ⟨fun _ _ _ => le_trans⟩

/-! ### `return_farest_features_from_center` (src/main.py lines 24-29) -/

/-- The per-point distance computed at line 27: the source computes
`sqrt(c[0]**2 + c[1]**2)`; we embed the squared value.  Since `Real.sqrt` is
monotone on the nonnegative reals (`sqrt_le_sqrt_iff_of_sq`,
`featureDistSq_nonneg` below), ranking by the square is the same ranking the
source computes, and it stays inside `ℚ` where sorting is executable.
Note the source reads only components `0` and `1` of each coordinate
column, whatever the embedding dimension `d` is. -/
def featureDistSq (c : List ℚ) : ℚ :=
  c.getD 0 0 ^ 2 + c.getD 1 0 ^ 2

theorem featureDistSq_nonneg (c : List ℚ) : 0 ≤ featureDistSq c := by
  have h0 : (0 : ℚ) ≤ c.getD 0 0 ^ 2 := sq_nonneg _
  have h1 : (0 : ℚ) ≤ c.getD 1 0 ^ 2 := sq_nonneg _
  unfold featureDistSq
  linarith

/-- Justification that sorting by the squared norm is faithful to the
source's `sqrt`-based ranking: on nonnegative arguments, comparisons of
square roots and of the radicands agree. -/
theorem sqrt_le_sqrt_iff_of_sq (a b : ℚ) (hb : 0 ≤ b) :
    Real.sqrt a ≤ Real.sqrt b ↔ (a : ℝ) ≤ b := by
  constructor
  · intro h
    by_contra hab
    push_neg at hab
    have hb' : (0 : ℝ) ≤ b := by exact_mod_cast hb
    have := Real.sqrt_lt_sqrt hb' hab
    linarith
  · intro h
    exact Real.sqrt_le_sqrt h

/-- `return_farest_features_from_center(coordinates, k)`: ranks the `N`
coordinate columns by distance of `(c[0], c[1])` from the origin and returns
`ranking_idx[-k:]`. -/
def return_farest_features_from_center (coordinates : List (List ℚ)) (k : ℕ) :
    List ℕ :=
  pySliceLast k (argsort ((npTranspose coordinates).map featureDistSq))

/-! ### Helper lemmas about `argsort` -/

theorem argsort_perm (v : List ℚ) : List.Perm (argsort v) (List.range v.length) :=
  List.perm_insertionSort _ _

theorem argsort_length (v : List ℚ) : (argsort v).length = v.length := by
  simpa using (argsort_perm v).length_eq

theorem argsort_nodup (v : List ℚ) : (argsort v).Nodup :=
  ((argsort_perm v).nodup_iff).2 (List.nodup_range _)

theorem argsort_mem_lt (v : List ℚ) (i : ℕ) (h : i ∈ argsort v) : i < v.length := by
  have := (argsort_perm v).mem_iff.1 h
  simpa using this

theorem argsort_mem_of_lt (v : List ℚ) (i : ℕ) (h : i < v.length) : i ∈ argsort v := by
  exact (argsort_perm v).mem_iff.2 (by simpa using h)

theorem argsort_sorted (v : List ℚ) :
    (argsort v).Sorted (fun i j => v.getD i 0 ≤ v.getD j 0) :=
  List.sorted_insertionSort _ _

/-- In the sorted index list, every key in the dropped-away prefix is `≤`
every key in the kept suffix. -/
theorem argsort_take_le_drop (v : List ℚ) (m i j : ℕ)
    (hi : i ∈ (argsort v).drop m) (hj : j ∈ (argsort v).take m) :
    v.getD j 0 ≤ v.getD i 0 := by
  have hs := argsort_sorted v
  have h2 : List.Pairwise (fun i j => v.getD i 0 ≤ v.getD j 0)
      ((argsort v).take m ++ (argsort v).drop m) := by
    rw [List.take_append_drop]
    exact hs
  exact (List.pairwise_append.1 h2).2.2 j hj i hi

theorem npTranspose_length (m : List (List ℚ)) :
    (npTranspose m).length = (m.headD []).length := by
  simp [npTranspose]

theorem getD_map_featureDistSq (cols : List (List ℚ)) (i : ℕ) (h : i < cols.length) :
    (cols.map featureDistSq).getD i 0 = featureDistSq (cols.getD i []) := by
  rw [List.getD_eq_getElem _ _ (by simpa using h), List.getD_eq_getElem _ _ h,
    List.getElem_map]

/-- Claim C10: `return_farest_features_from_center(coordinates, 0)` does not
fail and does not return an empty selection: since `ranking_idx[-0:]` is the
whole ranking array, it returns all `N` feature indices (a permutation of
`0..N-1`, in particular of length `N`), so the `k ≥ 1` precondition is not
enforced inside the function and `k = 0` silently selects every feature. -/
theorem farest_k_zero_selects_all (coordinates : List (List ℚ)) :
    List.Perm (return_farest_features_from_center coordinates 0)
      (List.range (coordinates.headD []).length) ∧
    (return_farest_features_from_center coordinates 0).length =
      (coordinates.headD []).length := by
  have hlen : ((npTranspose coordinates).map featureDistSq).length =
      (coordinates.headD []).length := by
    simp [npTranspose]
  have hres : return_farest_features_from_center coordinates 0 =
      argsort ((npTranspose coordinates).map featureDistSq) := by
    simp [return_farest_features_from_center, pySliceLast]
  constructor
  · rw [hres, ← hlen]
    exact argsort_perm _
  · rw [hres, argsort_length, hlen]

/-- Claim C4 (amended): for `1 ≤ k < N` the function returns exactly `k`
distinct valid feature indices, namely `k` indices whose distance from the
origin **in the first two coordinate components** is maximal: every selected
index's `c[0]^2 + c[1]^2` is at least every unselected index's.  (The claim's
"over all d components" is refuted by `farest_uses_only_first_two_components`
below; the source reads only `c[0]` and `c[1]`.) -/
theorem farest_selects_top_k_by_plane_norm (coordinates : List (List ℚ)) (k : ℕ)
    (hk : 1 ≤ k) (hkN : k < (coordinates.headD []).length) :
    (return_farest_features_from_center coordinates k).length = k ∧
    (return_farest_features_from_center coordinates k).Nodup ∧
    (∀ i ∈ return_farest_features_from_center coordinates k,
      i < (coordinates.headD []).length) ∧
    ∀ i ∈ return_farest_features_from_center coordinates k,
      ∀ j < (coordinates.headD []).length,
        j ∉ return_farest_features_from_center coordinates k →
          featureDistSq ((npTranspose coordinates).getD j []) ≤
            featureDistSq ((npTranspose coordinates).getD i []) := by
  set v := (npTranspose coordinates).map featureDistSq with hv
  have hvlen : v.length = (coordinates.headD []).length := by
    simp [hv, npTranspose]
  have hxl : (argsort v).length = (coordinates.headD []).length := by
    rw [argsort_length, hvlen]
  have hres : return_farest_features_from_center coordinates k =
      (argsort v).drop ((argsort v).length - k) := by
    have hk0 : k ≠ 0 := by omega
    simp [return_farest_features_from_center, pySliceLast, hk0, ← hv]
  have hmem_lt : ∀ i ∈ return_farest_features_from_center coordinates k,
      i < (coordinates.headD []).length := by
    intro i hi
    rw [hres] at hi
    have : i ∈ argsort v := List.mem_of_mem_drop hi
    have := argsort_mem_lt v i this
    omega
  refine ⟨?_, ?_, hmem_lt, ?_⟩
  · rw [hres, List.length_drop]
    omega
  · rw [hres]
    exact (List.drop_sublist _ _).nodup (argsort_nodup v)
  · intro i hi j hj hjnot
    have hiv : i < v.length := by
      have := hmem_lt i hi
      omega
    have hjv : j < v.length := by omega
    have hj_as : j ∈ argsort v := argsort_mem_of_lt v j hjv
    have hj_split : j ∈ (argsort v).take ((argsort v).length - k) ++
        (argsort v).drop ((argsort v).length - k) := by
      rw [List.take_append_drop]
      exact hj_as
    have hj_take : j ∈ (argsort v).take ((argsort v).length - k) := by
      rcases List.mem_append.1 hj_split with h | h
      · exact h
      · exact absurd (by rw [hres]; exact h) hjnot
    have hi_drop : i ∈ (argsort v).drop ((argsort v).length - k) := by
      rw [hres] at hi
      exact hi
    have hle := argsort_take_le_drop v ((argsort v).length - k) i j hi_drop hj_take
    have hjt : j < (npTranspose coordinates).length := by
      rw [npTranspose_length]
      omega
    have hit : i < (npTranspose coordinates).length := by
      rw [npTranspose_length]
      omega
    rw [getD_map_featureDistSq _ j hjt, getD_map_featureDistSq _ i hit] at hle
    exact hle

/-- Spec-side definition, written from the claim's words for C4: the squared
Euclidean norm of a coordinate vector over ALL of its components (the
source, by contrast, reads only components 0 and 1).  Squared rather than
rooted for the same monotone-transform reason as `featureDistSq`. -/
def fullSqNorm (c : List ℚ) : ℚ :=
  (c.map (fun x => x ^ 2)).sum

/-- Claim C4 (counterexample): with `d = 3`, `N = 2`, `k = 1` and
coordinates `[[1, 2], [0, 0], [10, 0]]` (columns `(1,0,10)` and `(2,0,0)`),
the full squared norms are `101` and `4`, so the index with the largest
Euclidean norm over all `d` components is `0`; but the function returns
`[1]`, because it ranks by `c[0]^2 + c[1]^2` only (`1` versus `4`).  Hence
the returned index is not the index of largest all-components norm. -/
theorem farest_uses_only_first_two_components :
    return_farest_features_from_center [[1, 2], [0, 0], [10, 0]] 1 = [1] ∧
    fullSqNorm ((npTranspose [[1, 2], [0, 0], [10, 0]]).getD 0 []) >
      fullSqNorm ((npTranspose [[1, 2], [0, 0], [10, 0]]).getD 1 []) := by
  constructor
  · norm_num [return_farest_features_from_center, pySliceLast, npTranspose,
      featureDistSq, argsort, List.insertionSort, List.orderedInsert,
      List.range_succ]
  · norm_num [fullSqNorm, npTranspose, List.range_succ]

/-- Witness for `farest_selects_top_k_by_plane_norm` at the concrete inputs
`coordinates = [[0, 3, 1], [0, 4, 1]]`, `k = 2` (so `N = 3`). -/
theorem farest_selects_top_k_witness :
    (return_farest_features_from_center [[0, 3, 1], [0, 4, 1]] 2).length = 2 ∧
    (return_farest_features_from_center [[0, 3, 1], [0, 4, 1]] 2).Nodup ∧
    (∀ i ∈ return_farest_features_from_center [[0, 3, 1], [0, 4, 1]] 2,
      i < (([[0, 3, 1], [0, 4, 1]] : List (List ℚ)).headD []).length) ∧
    ∀ i ∈ return_farest_features_from_center [[0, 3, 1], [0, 4, 1]] 2,
      ∀ j < (([[0, 3, 1], [0, 4, 1]] : List (List ℚ)).headD []).length,
        j ∉ return_farest_features_from_center [[0, 3, 1], [0, 4, 1]] 2 →
          featureDistSq ((npTranspose [[0, 3, 1], [0, 4, 1]]).getD j []) ≤
            featureDistSq ((npTranspose [[0, 3, 1], [0, 4, 1]]).getD i []) :=
  farest_selects_top_k_by_plane_norm [[0, 3, 1], [0, 4, 1]] 2 (by decide) (by decide)

/-! ### Data model for the pandas objects used by `calc_dist` -/

/-- A pandas DataFrame: an ordered sequence of named numeric columns. -/
structure DFrame where
  cols : List (String × List ℚ)
deriving DecidableEq

/-- A pandas Series (the label vector `classes`): an index plus values. -/
structure Series where
  index : List ℕ
  values : List ℚ
deriving DecidableEq

/-- `df.columns`. -/
def DFrame.columns (df : DFrame) : List String :=
  df.cols.map Prod.fst

/-- Column assignment `df[name] = v`: overwrite the column if one of that
name exists, else append it on the right. -/
def DFrame.setCol (df : DFrame) (name : String) (v : List ℚ) : DFrame :=
  if name ∈ df.columns then
    ⟨df.cols.map (fun p => if p.1 = name then (name, v) else p)⟩
  else ⟨df.cols ++ [(name, v)]⟩

/-- `classes.reset_index(drop=True, inplace=True)` (line 66): replaces the
index by the default `0..n-1` range, keeping the values. -/
def Series.resetIndex (s : Series) : Series :=
  ⟨List.range s.values.length, s.values⟩

/-- Helper for `pdUnique`, carrying the set of values already seen. -/
def pdUniqueAux (seen : List ℚ) : List ℚ → List ℚ
  | [] => []
  | x :: xs =>
    if x ∈ seen then pdUniqueAux seen xs else x :: pdUniqueAux (x :: seen) xs

/-- `pd.Series.unique()` (lines 71 and 75): the distinct values in order of
first appearance. -/
def pdUnique (l : List ℚ) : List ℚ :=
  pdUniqueAux [] l

/-- Modelled from the spec: `utils.general.flatten` (imported at line 18 of
src/main.py; its definition is not under src/).  Spec section 4.2 says
"flatten each resulting matrix row-major into a fixed-length vector", so it
is the row-major flattening. -/
def flatten (m : List (List ℚ)) : List ℚ :=
  m.flatten

/-! ### `calc_dist` (src/main.py lines 53-83)

The call `execute_distance_func(df, dist_func_name, feature, c1, c2)` made
inside the loop is abstracted as `dfunc : String → ℚ → ℚ → ℚ` (feature name
and the two class values; `df` and the metric name are fixed throughout the
loop).  The concrete metric implementations live in `utils/distances`, which
is not part of src/, so the theorems below quantify over `dfunc`. -/

/-- `class_row` (lines 72-76): one row of the class×class matrix for the
ordered first class `c1`, iterating `c2` over the unique classes; the
distance function is invoked exactly when `c1 != c2`, otherwise the entry is
the literal `0`. -/
def classRow (dfunc : String → ℚ → ℚ → ℚ) (uniq : List ℚ) (feature : String)
    (c1 : ℚ) : List ℚ :=
  uniq.map (fun c2 => if c1 ≠ c2 then dfunc feature c1 c2 else 0)

/-- `class_dist` (lines 70-77): the C×C class-pair matrix of one feature. -/
def classDistMatrix (dfunc : String → ℚ → ℚ → ℚ) (uniq : List ℚ)
    (feature : String) : List (List ℚ) :=
  uniq.map (fun c1 => classRow dfunc uniq feature c1)

/-- The outputs of `calc_dist` together with the final states of its two
arguments (the source mutates both: `df` at line 65 aliases `X_tr`, line 67
adds a `label` column to it, and line 66 resets the index of `classes` in
place). -/
structure CalcDistResult where
  X_tr' : DFrame
  classes' : Series
  df_dists : List (List ℚ)
  dist_dict : List (String × List (List ℚ))
deriving DecidableEq

/-- `calc_dist(dist_func_name, X_tr, classes)`, lines 53-83, with explicit
state passing for the two mutated arguments. -/
def calc_dist (dfunc : String → ℚ → ℚ → ℚ) (X_tr : DFrame) (classes : Series) :
    CalcDistResult :=
  let features := X_tr.columns
  let classes1 := classes.resetIndex
  let df := X_tr.setCol "label" classes1.values
  let uniq := pdUnique classes1.values
  let distances := features.map (fun f => classDistMatrix dfunc uniq f)
  let two_d_mat := distances.map flatten
  ⟨df, classes1, two_d_mat,
    (List.range distances.length).map
      (fun i => ("feature_" ++ toString (i + 1), distances.getD i []))⟩

/-- The argument triples `(feature, class1, class2)` on which `calc_dist`
invokes `execute_distance_func`, in source order: for every feature, for
every ordered pair of distinct unique classes (lines 69-76). -/
def calc_dist_calls (X_tr : DFrame) (classes : Series) : List (String × ℚ × ℚ) :=
  X_tr.columns.flatMap (fun f =>
    (pdUnique classes.values).flatMap (fun c1 =>
      ((pdUnique classes.values).filter (fun c2 => c1 ≠ c2)).map
        (fun c2 => (f, c1, c2))))

/-! ### Helper lemmas for `calc_dist` -/

theorem map_getD_range {α : Type} (l : List α) (d : α) :
    (List.range l.length).map (fun i => l.getD i d) = l := by
  apply List.ext_getElem
  · simp
  · intro i h1 h2
    rw [List.getElem_map, List.getElem_range, List.getD_eq_getElem _ _ h2]

theorem map_getD_range_comp {α β : Type} (l : List α) (d : α) (g : α → β) :
    (List.range l.length).map (fun i => g (l.getD i d)) = l.map g := by
  have h : (fun i => g (l.getD i d)) = g ∘ (fun i => l.getD i d) := rfl
  rw [h, ← List.map_map, map_getD_range]

theorem classDistMatrix_length (dfunc : String → ℚ → ℚ → ℚ) (uniq : List ℚ)
    (f : String) : (classDistMatrix dfunc uniq f).length = uniq.length := by
  simp [classDistMatrix]

theorem classDistMatrix_getD (dfunc : String → ℚ → ℚ → ℚ) (uniq : List ℚ)
    (f : String) (i j : ℕ) (d : ℚ) (hi : i < uniq.length) (hj : j < uniq.length) :
    ((classDistMatrix dfunc uniq f).getD i []).getD j d =
      if uniq[i] ≠ uniq[j] then dfunc f uniq[i] uniq[j] else 0 := by
  have hrow : (classDistMatrix dfunc uniq f).getD i [] =
      classRow dfunc uniq f uniq[i] := by
    rw [classDistMatrix, List.getD_eq_getElem _ _ (by simpa using hi),
      List.getElem_map]
  rw [hrow, classRow, List.getD_eq_getElem _ _ (by simpa using hj),
    List.getElem_map]

/-- Claim C2 (code refutation): `calc_dist` is not pure in its inputs.  At
the concrete input `X_tr = {"f1": [1, 2]}`, `classes = Series([0, 1],
index=[5, 7])` (any metric; the abstracted distance function is irrelevant
to the frame effect), the final state of `X_tr` has gained a `label` column
(line 65 aliases `df = X_tr`, line 67 assigns `df['label'] = classes`), and
the final state of `classes` has its index reset to `[0, 1]` by the
`inplace=True` reset at line 66. -/
theorem calc_dist_mutates_X_tr_and_classes :
    (calc_dist (fun _ _ _ => 0) ⟨[("f1", [1, 2])]⟩ ⟨[5, 7], [0, 1]⟩).X_tr' ≠
      (⟨[("f1", [1, 2])]⟩ : DFrame) ∧
    (calc_dist (fun _ _ _ => 0) ⟨[("f1", [1, 2])]⟩ ⟨[5, 7], [0, 1]⟩).X_tr'.columns =
      ["f1", "label"] ∧
    (calc_dist (fun _ _ _ => 0) ⟨[("f1", [1, 2])]⟩ ⟨[5, 7], [0, 1]⟩).classes' ≠
      (⟨[5, 7], [0, 1]⟩ : Series) ∧
    (calc_dist (fun _ _ _ => 0) ⟨[("f1", [1, 2])]⟩ ⟨[5, 7], [0, 1]⟩).classes'.index =
      [0, 1] := by
  decide

/-- Claim C3 (counterexample): with one feature and two classes `0, 1`, the
list of argument pairs on which `calc_dist` invokes the distance function is
`[(0,1), (1,0)]`: the single unordered class pair `{0,1}` leads to two
separate invocations, one per ordered pair, refuting "computed once per
unordered class pair and mirrored to the transposed entry, rather than being
recomputed separately for each ordered pair". -/
theorem calc_dist_recomputes_each_ordered_pair :
    calc_dist_calls ⟨[("f1", [1, 2])]⟩ ⟨[5, 7], [0, 1]⟩ =
      [("f1", 0, 1), ("f1", 1, 0)] ∧
    ("f1", (0 : ℚ), (1 : ℚ)) ∈ calc_dist_calls ⟨[("f1", [1, 2])]⟩ ⟨[5, 7], [0, 1]⟩ ∧
    ("f1", (1 : ℚ), (0 : ℚ)) ∈ calc_dist_calls ⟨[("f1", [1, 2])]⟩ ⟨[5, 7], [0, 1]⟩ := by
  decide

/-- Claim C3 (amended): `calc_dist` computes each off-diagonal entry
separately for both ordered class pairs (see
`calc_dist_recomputes_each_ordered_pair`); the resulting class-pair matrix
is nevertheless symmetric for every input whenever the dispatched distance
function is symmetric in its two class arguments, which the spec asserts of
all four supported metrics. -/
theorem calc_dist_matrix_symmetric_of_symm_dfunc
    (dfunc : String → ℚ → ℚ → ℚ) (hsym : ∀ f a b, dfunc f a b = dfunc f b a)
    (X_tr : DFrame) (classes : Series) :
    ∀ p ∈ (calc_dist dfunc X_tr classes).dist_dict, ∀ i j : ℕ,
      i < p.2.length → j < p.2.length →
        (p.2.getD i []).getD j 0 = (p.2.getD j []).getD i 0 := by
  intro p hp i j hi hj
  simp only [calc_dist] at hp
  obtain ⟨n, hn, rfl⟩ := List.mem_map.1 hp
  simp only [List.mem_range, List.length_map] at hn
  have hM : (X_tr.columns.map
        (fun f => classDistMatrix dfunc (pdUnique classes.resetIndex.values) f)).getD n [] =
      classDistMatrix dfunc (pdUnique classes.resetIndex.values) (X_tr.columns.getD n "") := by
    rw [List.getD_eq_getElem _ _ (by simpa using hn), List.getElem_map,
      List.getD_eq_getElem _ _ hn]
  simp only [hM] at hi hj ⊢
  rw [classDistMatrix_length] at hi hj
  rw [classDistMatrix_getD dfunc _ _ i j 0 hi hj,
    classDistMatrix_getD dfunc _ _ j i 0 hj hi]
  by_cases h : (pdUnique classes.resetIndex.values)[i] =
      (pdUnique classes.resetIndex.values)[j]
  · simp [h]
  · simp only [ne_eq, h, not_false_iff, if_true, Ne.symm h]
    exact hsym _ _ _

/-- Witness for `calc_dist_matrix_symmetric_of_symm_dfunc` with the
symmetric distance function `min`, at the same concrete input as above;
the matrix of feature `f1` is `[[0, 0], [0, 0]]` and its `(0,1)` and `(1,0)`
entries agree. -/
theorem calc_dist_matrix_symmetric_witness :
    (((("feature_1", [[0, 0], [0, 0]]) : String × List (List ℚ)).2.getD 0 []).getD 1 0 =
      ((("feature_1", [[0, 0], [0, 0]]) : String × List (List ℚ)).2.getD 1 []).getD 0 0) :=
  calc_dist_matrix_symmetric_of_symm_dfunc (fun _ a b => min a b)
    (fun _ a b => min_comm a b) ⟨[("f1", [1, 2])]⟩ ⟨[5, 7], [0, 1]⟩
    ("feature_1", [[0, 0], [0, 0]]) (by decide) 0 1 (by decide) (by decide)

/-- Claim C6: the flattened distance table `df_dists` returned by
`calc_dist` has exactly one row per feature (in feature order: row `i` is
the row-major flattening of feature `i`'s class-pair matrix, third
conjunct), and every row has exactly `C·C` entries where `C` is the number
of distinct class labels — in particular the column count is the same in
every row. -/
theorem calc_dist_table_shape (dfunc : String → ℚ → ℚ → ℚ) (X_tr : DFrame)
    (classes : Series) :
    (calc_dist dfunc X_tr classes).df_dists.length = X_tr.columns.length ∧
    (∀ row ∈ (calc_dist dfunc X_tr classes).df_dists,
      row.length =
        (pdUnique classes.values).length * (pdUnique classes.values).length) ∧
    (calc_dist dfunc X_tr classes).df_dists =
      (calc_dist dfunc X_tr classes).dist_dict.map (fun p => flatten p.2) := by
  refine ⟨?_, ?_, ?_⟩
  · simp [calc_dist]
  · intro row hrow
    simp only [calc_dist, List.mem_map] at hrow
    obtain ⟨M, hM, rfl⟩ := hrow
    obtain ⟨f, hf, rfl⟩ := hM
    simp only [flatten, classDistMatrix, classRow, List.length_flatten,
      List.map_map, Series.resetIndex]
    have hconst : (List.map (List.length ∘ fun c1 =>
        List.map (fun c2 => if c1 ≠ c2 then dfunc f c1 c2 else 0)
          (pdUnique classes.values)) (pdUnique classes.values)) =
        List.replicate (pdUnique classes.values).length
          (pdUnique classes.values).length := by
      rw [List.eq_replicate_iff]
      constructor
      · simp
      · intro b hb
        obtain ⟨c1, hc1, rfl⟩ := List.mem_map.1 hb
        simp [Function.comp]
    rw [hconst, List.sum_replicate, smul_eq_mul]
  · simp only [calc_dist, List.map_map, Function.comp_def, List.length_map]
    have h := map_getD_range_comp
      (X_tr.columns.map
        (fun f => classDistMatrix dfunc (pdUnique classes.resetIndex.values) f))
      ([] : List (List ℚ)) flatten
    simp only [List.length_map, List.map_map, Function.comp_def] at h
    exact h.symm

/-- Witness for `calc_dist_table_shape` at the concrete input used above
(one feature, two classes, `min` as distance): the table is `[[0,0,0,0]]`
with one row of length `2·2 = 4`, equal to the flattened matrix list. -/
theorem calc_dist_table_shape_witness :
    (calc_dist (fun _ a b => min a b) ⟨[("f1", [1, 2])]⟩ ⟨[5, 7], [0, 1]⟩).df_dists.length =
      (DFrame.columns ⟨[("f1", [1, 2])]⟩).length ∧
    ([0, 0, 0, 0] : List ℚ).length = (pdUnique [0, 1]).length * (pdUnique [0, 1]).length ∧
    (calc_dist (fun _ a b => min a b) ⟨[("f1", [1, 2])]⟩ ⟨[5, 7], [0, 1]⟩).df_dists =
      (calc_dist (fun _ a b => min a b) ⟨[("f1", [1, 2])]⟩ ⟨[5, 7], [0, 1]⟩).dist_dict.map
        (fun p => flatten p.2) :=
  ⟨(calc_dist_table_shape (fun _ a b => min a b) ⟨[("f1", [1, 2])]⟩ ⟨[5, 7], [0, 1]⟩).1,
   (calc_dist_table_shape (fun _ a b => min a b) ⟨[("f1", [1, 2])]⟩ ⟨[5, 7], [0, 1]⟩).2.1
     [0, 0, 0, 0] (by decide),
   (calc_dist_table_shape (fun _ a b => min a b) ⟨[("f1", [1, 2])]⟩ ⟨[5, 7], [0, 1]⟩).2.2⟩

/-- Claim C7: in every class-pair matrix built by `calc_dist`, every
diagonal entry is the literal `0` (first conjunct, with the distance
function `dfunc` universally quantified: the value holds regardless of what
the distance formula would return), and the distance function is never
invoked on a pair of equal class values (second conjunct). -/
theorem calc_dist_diagonal_zero_no_call (dfunc : String → ℚ → ℚ → ℚ)
    (X_tr : DFrame) (classes : Series) :
    (∀ p ∈ (calc_dist dfunc X_tr classes).dist_dict, ∀ i : ℕ,
      i < p.2.length → (p.2.getD i []).getD i 1 = 0) ∧
    ∀ f c, (f, c, c) ∉ calc_dist_calls X_tr classes := by
  constructor
  · intro p hp i hi
    simp only [calc_dist] at hp
    obtain ⟨n, hn, rfl⟩ := List.mem_map.1 hp
    simp only [List.mem_range, List.length_map] at hn
    have hM : (X_tr.columns.map
          (fun f => classDistMatrix dfunc (pdUnique classes.resetIndex.values) f)).getD n [] =
        classDistMatrix dfunc (pdUnique classes.resetIndex.values)
          (X_tr.columns.getD n "") := by
      rw [List.getD_eq_getElem _ _ (by simpa using hn), List.getElem_map,
        List.getD_eq_getElem _ _ hn]
    simp only [hM] at hi ⊢
    rw [classDistMatrix_length] at hi
    rw [classDistMatrix_getD dfunc _ _ i i 1 hi hi]
    simp
  · intro f c hmem
    simp only [calc_dist_calls, List.mem_flatMap, List.mem_map,
      List.mem_filter, decide_eq_true_eq] at hmem
    obtain ⟨f', _, c1, hc1, c2, ⟨_, hne⟩, heq⟩ := hmem
    have h1 : c1 = c := congrArg (fun t => t.2.1) heq
    have h2 : c2 = c := congrArg (fun t => t.2.2) heq
    exact hne (h1.trans h2.symm)

/-- Witness for `calc_dist_diagonal_zero_no_call` at the concrete input used
above: the `(0,0)` entry of feature `f1`'s matrix is `0`, and the call list
contains no `(f1, 0, 0)` invocation. -/
theorem calc_dist_diagonal_zero_witness :
    ((("feature_1", [[0, 0], [0, 0]]) : String × List (List ℚ)).2.getD 0 []).getD 0 1 = 0 ∧
    ("f1", (0 : ℚ), (0 : ℚ)) ∉ calc_dist_calls ⟨[("f1", [1, 2])]⟩ ⟨[5, 7], [0, 1]⟩ :=
  ⟨(calc_dist_diagonal_zero_no_call (fun _ a b => min a b) ⟨[("f1", [1, 2])]⟩
      ⟨[5, 7], [0, 1]⟩).1 ("feature_1", [[0, 0], [0, 0]]) (by decide) 0 (by decide),
   (calc_dist_diagonal_zero_no_call (fun _ a b => min a b) ⟨[("f1", [1, 2])]⟩
      ⟨[5, 7], [0, 1]⟩).2 "f1" 0⟩

/-! ### `execute_distance_func` (src/main.py lines 32-50) -/

/-- `execute_distance_func(df, function_name, feature, label1, label2)`:
the assert at line 44 rejects any name outside the four supported ones
(modelled as `none`, the raised AssertionError); otherwise the string-keyed
dictionary at lines 45-50 of zero-argument closures dispatches to the
corresponding distance function.  The four library implementations (from
`utils/distances`, not under src/) are abstracted as parameters. -/
def execute_distance_func
    (wasserstein_dist bhattacharyya_dist hellinger_dist jm_dist :
      DFrame → String → ℚ → ℚ → ℚ)
    (df : DFrame) (function_name feature : String) (label1 label2 : ℚ) :
    Option ℚ :=
  if function_name ∈ ["wasserstein", "bhattacharyya", "jm", "hellinger"] then
    (([("wasserstein", fun (_ : Unit) => wasserstein_dist df feature label1 label2),
       ("bhattacharyya", fun _ => bhattacharyya_dist df feature label1 label2),
       ("hellinger", fun _ => hellinger_dist df feature label1 label2),
       ("jm", fun _ => jm_dist df feature label1 label2)]).lookup
        function_name).map (fun g => g ())
  else none

/-- Claim C8: every `function_name` outside the closed enumeration
{wasserstein, bhattacharyya, hellinger, jm} is rejected at the boundary
(the assert fires before any dispatch, modelled as `none`), and every name
inside the enumeration dispatches to the corresponding abstracted distance
function and produces its value (no failure on dispatch). -/
theorem execute_distance_func_dispatch
    (wd bd hd jd : DFrame → String → ℚ → ℚ → ℚ) (df : DFrame)
    (feature : String) (l1 l2 : ℚ) :
    (∀ name, name ∉ ["wasserstein", "bhattacharyya", "jm", "hellinger"] →
      execute_distance_func wd bd hd jd df name feature l1 l2 = none) ∧
    execute_distance_func wd bd hd jd df "wasserstein" feature l1 l2 =
      some (wd df feature l1 l2) ∧
    execute_distance_func wd bd hd jd df "bhattacharyya" feature l1 l2 =
      some (bd df feature l1 l2) ∧
    execute_distance_func wd bd hd jd df "hellinger" feature l1 l2 =
      some (hd df feature l1 l2) ∧
    execute_distance_func wd bd hd jd df "jm" feature l1 l2 =
      some (jd df feature l1 l2) := by
  refine ⟨?_, ?_, ?_, ?_, ?_⟩
  · intro name h
    simp [execute_distance_func, h]
  all_goals rfl

/-- Witness for `execute_distance_func_dispatch`: the unsupported name
`euclidean` is rejected and `wasserstein` dispatches to the first
function. -/
theorem execute_distance_func_dispatch_witness :
    execute_distance_func (fun _ _ _ _ => 1) (fun _ _ _ _ => 2) (fun _ _ _ _ => 3)
      (fun _ _ _ _ => 4) ⟨[]⟩ "euclidean" "f" 0 1 = none ∧
    execute_distance_func (fun _ _ _ _ => 1) (fun _ _ _ _ => 2) (fun _ _ _ _ => 3)
      (fun _ _ _ _ => 4) ⟨[]⟩ "wasserstein" "f" 0 1 = some 1 :=
  ⟨(execute_distance_func_dispatch (fun _ _ _ _ => 1) (fun _ _ _ _ => 2)
      (fun _ _ _ _ => 3) (fun _ _ _ _ => 4) ⟨[]⟩ "f" 0 1).1 "euclidean" (by decide),
   (execute_distance_func_dispatch (fun _ _ _ _ => 1) (fun _ _ _ _ => 2)
      (fun _ _ _ _ => 3) (fun _ _ _ _ => 4) ⟨[]⟩ "f" 0 1).2.1⟩

/-! ### The clustering-based selection strategies
(src/main.py lines 86-96 and 99-110)

The sklearn estimators draw their randomness from `random_state` when it is
given and from the process-global RNG state otherwise; the parameter `ρ`
below models that ambient per-run state, and `effectiveSeed` the seed the
library actually uses.  Both call sites pass the literal `random_state=0`
(lines 88 and 102), so the strategies never consult `ρ`; a library run with
a fixed seed is a deterministic function of its data arguments, abstracted
below as `kmeansLabels` / `kmedoidsCenters`. -/

/-- The seed an sklearn estimator derives its RNG from: `random_state` when
supplied, the ambient state `ρ` otherwise. -/
def effectiveSeed (random_state : Option ℕ) (ρ : ℕ) : ℕ :=
  random_state.getD ρ

/-- The loop of lines 90-95: walk the ranking; a feature whose cluster label
was not seen before is emitted and its label recorded (the source appends to
`best_features` / `selected_cetroids`). -/
def kmeansWalk (labels : List ℕ) : List ℕ → List ℕ → List ℕ
  | [], _ => []
  | idx :: rest, selected =>
    if labels.getD idx 0 ∈ selected then kmeansWalk labels rest selected
    else idx :: kmeansWalk labels rest (selected ++ [labels.getD idx 0])

/-- `return_best_features_by_kmeans(coordinates, k)` (lines 86-96):
`features_rank = np.argsort(coordinates[0])`, cluster labels from
`KMeans(n_clusters=k, random_state=0).fit(coordinates.T).labels_`
(abstracted as `kmeansLabels seed points k`), then the first-feature-per-
cluster walk; returns `(best_features, labels, features_rank)`. -/
def return_best_features_by_kmeans
    (kmeansLabels : ℕ → List (List ℚ) → ℕ → List ℕ) (ρ : ℕ)
    (coordinates : List (List ℚ)) (k : ℕ) : List ℕ × List ℕ × List ℕ :=
  let features_rank := argsort (coordinates.headD [])
  let labels := kmeansLabels (effectiveSeed (some 0) ρ) (npTranspose coordinates) k
  (kmeansWalk labels features_rank [], labels, features_rank)

/-- The numpy membership test `v in centers` used at line 108: for a 2-D
array `centers` and a row vector `v` it is `(centers == v).any()`, true as
soon as ANY single component of ANY center equals the corresponding
component of `v` — not a whole-row equality. -/
def npContains (centers : List (List ℚ)) (v : List ℚ) : Bool :=
  centers.any (fun c => (c.zip v).any (fun p => decide (p.1 = p.2)))

/-- `k_medoids_features(coordinates, k)` (lines 99-110): transpose to the
point list, fit `KMedoids(n_clusters=k, random_state=0)` (abstracted as
`kmedoidsCenters seed points k`, returning the `cluster_centers_`, which for
k-medoids are `k` of the data points), then collect every index `i` whose
point passes the `v in centers` test. -/
def k_medoids_features
    (kmedoidsCenters : ℕ → List (List ℚ) → ℕ → List (List ℚ)) (ρ : ℕ)
    (coordinates : List (List ℚ)) (k : ℕ) : List ℕ :=
  let pts := npTranspose coordinates
  let centers := kmedoidsCenters (effectiveSeed (some 0) ρ) pts k
  (List.range pts.length).filter (fun i => npContains centers (pts.getD i []))

/-- Claim C1 (code refutation): at `coordinates = [[0,0,0],[0,5,12]]`
(`d = 2`, `N = 3`, points `(0,0)`, `(0,5)`, `(0,12)`) with `k = 1`, the
lookup returns `[0, 1, 2]` — all three indices — whichever of the three
points the clustering returns as its single medoid (the three conjuncts
cover every possible medoid), because every point shares its first
component `0` with the center, and numpy's `v in centers` is an
any-element test.  The claim requires exactly the `k = 1` medoid index. -/
theorem kMedoids_lookup_not_exact_medoids :
    (k_medoids_features (fun _ _ _ => [[0, 0]]) 0 [[0, 0, 0], [0, 5, 12]] 1 =
      [0, 1, 2]) ∧
    (k_medoids_features (fun _ _ _ => [[0, 5]]) 0 [[0, 0, 0], [0, 5, 12]] 1 =
      [0, 1, 2]) ∧
    (k_medoids_features (fun _ _ _ => [[0, 12]]) 0 [[0, 0, 0], [0, 5, 12]] 1 =
      [0, 1, 2]) ∧
    ([0, 1, 2] : List ℕ).length ≠ 1 := by
  decide

/-- Claim C9: the three selection strategies are deterministic across
repeated runs: the result does not depend on the ambient RNG state `ρ`,
because both clustering call sites pass the fixed `random_state=0` (so the
effective seed is `0` whatever `ρ` is) and the norm-based strategy is
seed-free. -/
theorem selection_strategies_deterministic
    (kmeansLabels : ℕ → List (List ℚ) → ℕ → List ℕ)
    (kmedoidsCenters : ℕ → List (List ℚ) → ℕ → List (List ℚ))
    (coordinates : List (List ℚ)) (k : ℕ) (ρ1 ρ2 : ℕ) :
    return_best_features_by_kmeans kmeansLabels ρ1 coordinates k =
      return_best_features_by_kmeans kmeansLabels ρ2 coordinates k ∧
    k_medoids_features kmedoidsCenters ρ1 coordinates k =
      k_medoids_features kmedoidsCenters ρ2 coordinates k ∧
    return_farest_features_from_center coordinates k =
      return_farest_features_from_center coordinates k :=
  ⟨rfl, rfl, rfl⟩

/-! ### Lemmas about the k-means walk -/

theorem kmeansWalk_sublist (labels : List ℕ) :
    ∀ (rank sel : List ℕ), List.Sublist (kmeansWalk labels rank sel) rank := by
  intro rank
  induction rank with
  | nil =>
    intro sel
    simp [kmeansWalk]
  | cons idx rest ih =>
    intro sel
    simp only [kmeansWalk]
    by_cases h : labels.getD idx 0 ∈ sel
    · simp only [if_pos h]
      exact List.Sublist.cons idx (ih sel)
    · simp only [if_neg h]
      exact List.Sublist.cons₂ idx (ih (sel ++ [labels.getD idx 0]))

theorem kmeansWalk_labels_nodup (labels : List ℕ) :
    ∀ (rank sel : List ℕ),
      ((kmeansWalk labels rank sel).map (fun i => labels.getD i 0)).Nodup ∧
      ∀ x ∈ (kmeansWalk labels rank sel).map (fun i => labels.getD i 0),
        x ∉ sel := by
  intro rank
  induction rank with
  | nil =>
    intro sel
    simp [kmeansWalk]
  | cons idx rest ih =>
    intro sel
    simp only [kmeansWalk]
    by_cases h : labels.getD idx 0 ∈ sel
    · simpa only [if_pos h] using ih sel
    · simp only [if_neg h, List.map_cons]
      constructor
      · rw [List.nodup_cons]
        refine ⟨?_, (ih (sel ++ [labels.getD idx 0])).1⟩
        intro hx
        have h2 := (ih (sel ++ [labels.getD idx 0])).2 _ hx
        simp at h2
      · intro x hx
        rcases List.mem_cons.1 hx with rfl | hx2
        · exact h
        · intro hxs
          exact (ih (sel ++ [labels.getD idx 0])).2 x hx2
            (List.mem_append_left _ hxs)

theorem kmeansWalk_length (labels : List ℕ) :
    ∀ (rank sel : List ℕ),
      (kmeansWalk labels rank sel).length =
        (((rank.map (fun i => labels.getD i 0)).toFinset) \ sel.toFinset).card := by
  intro rank
  induction rank with
  | nil =>
    intro sel
    simp [kmeansWalk]
  | cons idx rest ih =>
    intro sel
    simp only [kmeansWalk, List.map_cons, List.toFinset_cons]
    by_cases h : labels.getD idx 0 ∈ sel
    · rw [if_pos h, ih sel, Finset.insert_sdiff_of_mem _ (List.mem_toFinset.2 h)]
    · rw [if_neg h, List.length_cons, ih (sel ++ [labels.getD idx 0])]
      have hsel : (sel ++ [labels.getD idx 0]).toFinset =
          insert (labels.getD idx 0) sel.toFinset := by
        simp [List.toFinset_append, Finset.union_comm, Finset.insert_eq]
      rw [hsel]
      have hxS : labels.getD idx 0 ∉ sel.toFinset :=
        fun hc => h (List.mem_toFinset.1 hc)
      rw [Finset.sdiff_insert, Finset.insert_sdiff_of_not_mem _ hxS]
      by_cases hxT : labels.getD idx 0 ∈
          (rest.map (fun i => labels.getD i 0)).toFinset \ sel.toFinset
      · have h1 := Finset.card_erase_of_mem hxT
        have h2 := Finset.insert_eq_self.2 hxT
        have h3 : 0 < ((rest.map (fun i => labels.getD i 0)).toFinset \
            sel.toFinset).card := Finset.card_pos.2 ⟨_, hxT⟩
        rw [h1, h2]
        omega
      · rw [Finset.erase_eq_of_not_mem hxT, Finset.card_insert_of_not_mem hxT]

/-- Claim C5: the feature list returned by `return_best_features_by_kmeans`
contains at most one feature per k-means cluster: its indices are pairwise
distinct (first conjunct), their cluster labels are pairwise distinct
(second conjunct — at most one representative per cluster), its size is
exactly the number of distinct cluster labels (third conjunct) which is at
most `k` (fourth conjunct) — so fewer than `k` features are returned
precisely when fewer than `k` distinct labels occur.  The hypotheses state
what the KMeans library guarantees: one label per point (`N` of them), each
in `0..k-1`. -/
theorem kmeans_selection_one_per_cluster
    (kmeansLabels : ℕ → List (List ℚ) → ℕ → List ℕ)
    (coordinates : List (List ℚ)) (k : ℕ)
    (hlen : (kmeansLabels 0 (npTranspose coordinates) k).length =
      (coordinates.headD []).length)
    (hlab : ∀ l ∈ kmeansLabels 0 (npTranspose coordinates) k, l < k) :
    (return_best_features_by_kmeans kmeansLabels 0 coordinates k).1.Nodup ∧
    ((return_best_features_by_kmeans kmeansLabels 0 coordinates k).1.map
      (fun i => (kmeansLabels 0 (npTranspose coordinates) k).getD i 0)).Nodup ∧
    (return_best_features_by_kmeans kmeansLabels 0 coordinates k).1.length =
      (kmeansLabels 0 (npTranspose coordinates) k).toFinset.card ∧
    (kmeansLabels 0 (npTranspose coordinates) k).toFinset.card ≤ k := by
  have hseed : effectiveSeed (some 0) 0 = 0 := rfl
  set labels := kmeansLabels 0 (npTranspose coordinates) k with hlabels
  set rank := argsort (coordinates.headD []) with hrank
  have hbest : (return_best_features_by_kmeans kmeansLabels 0 coordinates k).1 =
      kmeansWalk labels rank [] := by
    simp only [return_best_features_by_kmeans, hseed, hlabels, hrank]
  have hcard : ((rank.map (fun i => labels.getD i 0)).toFinset).card =
      labels.toFinset.card := by
    have hperm : List.Perm rank (List.range labels.length) := by
      rw [hlabels, hlen, hrank]
      exact argsort_perm _
    have hperm2 : List.Perm (rank.map (fun i => labels.getD i 0))
        ((List.range labels.length).map (fun i => labels.getD i 0)) :=
      hperm.map _
    rw [List.toFinset_eq_of_perm _ _ hperm2, map_getD_range]
  refine ⟨?_, ?_, ?_, ?_⟩
  · rw [hbest]
    exact (kmeansWalk_sublist labels rank []).nodup (argsort_nodup _)
  · rw [hbest]
    exact (kmeansWalk_labels_nodup labels rank []).1
  · rw [hbest, kmeansWalk_length]
    simp only [List.toFinset_nil, Finset.sdiff_empty]
    exact hcard
  · have hsub : labels.toFinset ⊆ Finset.range k := by
      intro x hx
      exact Finset.mem_range.2 (hlab x (List.mem_toFinset.1 hx))
    simpa using Finset.card_le_card hsub

/-- Witness for `kmeans_selection_one_per_cluster`: one embedding axis,
three features ranked `0,1,2`, labels `[0,1,0]`, `k = 2`; the walk returns
`[0, 1]`, one representative each for clusters `0` and `1`. -/
theorem kmeans_selection_witness :
    (return_best_features_by_kmeans (fun _ _ _ => [0, 1, 0]) 0 [[0, 1, 2]] 2).1.Nodup ∧
    ((return_best_features_by_kmeans (fun _ _ _ => [0, 1, 0]) 0 [[0, 1, 2]] 2).1.map
      (fun i => ([0, 1, 0] : List ℕ).getD i 0)).Nodup ∧
    (return_best_features_by_kmeans (fun _ _ _ => [0, 1, 0]) 0 [[0, 1, 2]] 2).1.length =
      ([0, 1, 0] : List ℕ).toFinset.card ∧
    ([0, 1, 0] : List ℕ).toFinset.card ≤ 2 :=
  kmeans_selection_one_per_cluster (fun _ _ _ => [0, 1, 0]) [[0, 1, 2]] 2
    (by decide) (by decide)

end Thesis
